import Mathlib

/-!
# Verification of the regex-chess compiler and instruction set

A shallow embedding of the `regex-chess` repository (files `compiler.py`
and `instruction_set.py`), together with proofs about the embedded code.

The program compiles a traced imperative program into an ordered list of
`(regex, replacement)` rewrite rules that operate on a textual machine
state.  The machine state is a sequence of *threads*; each thread is a
header line (`%%` for an active thread, `%TAG` for an inactive one)
followed by a `#stack:` line and then newline-terminated lines: first the
stack values (one per line, top first), then variable lines `#name: value`.
By the state grammar, lines never contain `\n`, `%` or `#` (except that a
variable line starts with `#`), so a line-structured model is faithful:

* a thread is modelled as an optional tag (`none` = active `%%`) plus the
  list of its body lines (the lines after `#stack:`), each line a
  `List Char` without `\n`;
* a whole state is a list of threads;
* each instruction of `instruction_set.py` is an ordered list of rewrite
  rules; every rule is translated, one by one and in source order, into a
  function on this structure.  A rule that does not match behaves as the
  identity (an `re.sub` with no match returns its input unchanged).

Every rule that is anchored on `%%\n#stack:\n` can only rewrite the first
body lines of an active thread (its pattern cannot cross a `%` or a `\n`
beyond the lines it captures), which is what the per-rule functions below
implement.  Unanchored rules (such as the backtick-erasing cleanup rules)
apply to the whole text and are modelled as maps over all lines.
-/

namespace RegexChess

/-- The backtick sentinel character used by the instruction set to mark
rules that already fired. -/
def btChar : Char := Char.ofNat 96

/-- A single line of the text state (never contains a newline). -/
abbrev Line := List Char

/-- Unary integers: `n` is encoded as a run of `n` copies of `A`
(`instruction_set.py`, unary arithmetic ops). -/
def unary (n : Nat) : Line := List.replicate n 'A'

/-- `n` copies of the bit character `0`. -/
def zeros (n : Nat) : Line := List.replicate n '0'

/-- Is this character the unary digit `A`?  Mirrors the regex class `A`. -/
def isA (c : Char) : Bool := c = 'A'

/-- Is this character a binary digit?  Mirrors the regex class `[01]`. -/
def isBit (c : Char) : Bool := c = '0' || c = '1'

/-- The big-endian `w`-bit binary literal of `m` (`f"{m:0wb}"` for
`m < 2^w`), one character per bit. -/
def binChars : Nat → Nat → List Char
  | 0, _ => []
  | w + 1, m => (if 2 ^ w ≤ m then '1' else '0') :: binChars w (m % 2 ^ w)

/-- The fixed-width integer literal `int` + 10 bits pushed by `push` for an
`int` argument (`push` formats integers as `f"int{const:010b}"`). -/
def binLit (n : Nat) : Line := 'i' :: 'n' :: 't' :: binChars 10 n

/-- The boolean literal lines `True` / `False`. -/
def boolLine (b : Bool) : Line := if b then "True".data else "False".data

/-- One thread of the text state: `tag = none` renders as the active header
`%%`, `tag = some t` as the inactive header `%t`.  `body` holds the lines
after the `#stack:` line: stack values first, then `#name: value` lines. -/
structure Thread where
  tag : Option (List Char)
  body : List Line
deriving DecidableEq, Repr

/-- A whole text state: the concatenation of its threads. -/
abbrev MState := List Thread

/-- The stack section of a body: the lines before the first `#`-headed
(variable) line. -/
def stackLines (body : List Line) : List Line :=
  body.takeWhile (fun l => l.head? ≠ some '#')

/-- A variable line `#name: value`. -/
def varLine (name : List Char) (val : List Char) : Line :=
  '#' :: (name ++ ':' :: ' ' :: val)

/-- Apply a body-rewriting rule that is anchored on `%%\n#stack:\n`: it
fires on active threads only and leaves inactive threads unchanged. -/
def onActive (f : List Line → List Line) (t : Thread) : Thread :=
  if t.tag = none then { t with body := f t.body } else t

/-- Apply a line-level rule to the first body line only (for rules whose
pattern continues directly after the anchor `%%\n#stack:\n` without a
newline, hence cannot reach past the first line). -/
def onFirstLine (f : Line → Line) : List Line → List Line
  | [] => []
  | l :: rest => f l :: rest

/-! ## Simple stack instructions -/

/-- `push V`: rule `(%%\n#stack:\n)` → `\1V\n` prepends the value as the
new first stack line. -/
def pushB (v : Line) (body : List Line) : List Line := v :: body

/-- `pop`: rule `(%%\n#stack:\n)([^\n]*)\n` → `\1` removes the first body
line, whatever it is (stack value or variable line). -/
def popB : List Line → List Line
  | [] => []
  | _ :: rest => rest

/-- `dup`: rule `(%%\n#stack:\n)([^\n]*)\n` → `\1\2\n\2\n`. -/
def dupB : List Line → List Line
  | [] => []
  | l :: rest => l :: l :: rest

/-- `swap`: rule `(%%\n#stack:\n)([^\n]*)\n([^\n]*)\n` → `\1\3\n\2\n`. -/
def swapB : List Line → List Line
  | a :: b :: rest => b :: a :: rest
  | l => l

/-- The `pop` instruction on a thread. -/
def applyPop : Thread → Thread := onActive popB

/-! ## The catch-all illegal-move rule (text level)

`illegal_move` is the single rule `^[^%<]*$` →
`*Illegal Move*\nYou Lose.\nGame over.\n`, applied by the runtime with
`re.sub` and **no** MULTILINE flag (`main.py` uses plain `re.sub`, and
`write_regex_json.py` gives `^`-anchored patterns the `/g` flag, not
`/gm`).  Hence `^` only matches at the start of the whole state and `$`
only at its end (or before one final newline).  The character class
`[^%<]` also matches `\n`, so the pattern matches exactly when the entire
state contains no `%` and no `<` character, and then the whole state is
replaced by the message. -/

/-- Replacement text of the `illegal_move` rule. -/
def illegalRepl : List Char := ("*Illegal Move*\nYou Lose.\nGame over.\n").data

/-- The `illegal_move` rule as a function on the raw state text. -/
def illegalMove (s : List Char) : List Char :=
  if s.contains '%' || s.contains '<' then s else illegalRepl

/-- Does the text contain `pat` as a contiguous substring? -/
def containsSeq (pat : List Char) : List Char → Bool
  | [] => pat.isEmpty
  | c :: rest => pat.isPrefixOf (c :: rest) || containsSeq pat rest

/-- Does the raw text contain an active-thread header `%%`? -/
def hasActiveHeader (s : List Char) : Bool := containsSeq ('%' :: '%' :: []) s

/-! ## The tracer (`compiler.py`, classes `CallTree`/`VarTracer`, `trace`)

A traced program is a sequence of statements; a statement is either an
opaque recorded event (an assignment or instruction emission, which
`CallTree.append` records) or a two-armed conditional: the program calls
`branch` (via `.ite()`), runs its then-arm if `branch` returned `True` and
its else-arm otherwise, and then calls `merge`.

The recorded call tree is a list of nodes; a branch node carries its two
children, each `None` (unexplored) or a recorded list.  `branch` descends
into the left child while it is incompletely explored (`traverse` returns
`False`), otherwise into the right child (returning `False`), creating a
fresh node with children `[[], None]` when the cursor is past the end of
the recorded list.  `merge` pops the cursor one level and advances it.

The functions below are fuel-indexed so that they are structurally
recursive (and hence compute by `rfl`); the Python recursion is unbounded
but every use in this file stays far below the fuel. -/

/-- A statement of a traced program. -/
inductive Stmt where
  | opS (name : String) : Stmt
  | iteS (thenB elseB : List Stmt) : Stmt
deriving Repr

/-- A node of the recorded call tree: an opaque event, or a branch whose
children are `none` (unexplored) or a recorded sub-list. -/
inductive CNode where
  | opN (name : String) : CNode
  | branch (l r : Option (List CNode)) : CNode
deriving Repr

/-- `CallTree.traverse` on a recorded list: `false` iff some branch node in
it has a `None` child (recursively). -/
def traverseN (fuel : Nat) : List CNode → Bool
  | [] => true
  | n :: rest =>
    match fuel with
    | 0 => false
    | f + 1 =>
      (match n with
       | .opN _ => true
       | .branch a b =>
         a.isSome && b.isSome &&
           traverseN f (a.getD []) && traverseN f (b.getD [])) &&
      traverseN f rest

/-- `CallTree.traverse` applied to an optional child: `traverse(None)` is
`False`. -/
def traverseO (fuel : Nat) : Option (List CNode) → Bool
  | none => false
  | some l => traverseN fuel l

/-- One execution of (a suffix of) the traced program against the recorded
list `recL` with replay cursor `p`, mirroring `CallTree.append`,
`CallTree.branch` and `CallTree.merge`:

* an opaque statement appends its node when the cursor is past the end
  (otherwise the recorded node is asserted equal and kept);
* a conditional at a recorded `branch` node descends left while the left
  child is incompletely explored and right otherwise, replacing the child
  with the result of running the corresponding arm on it;
* a conditional past the end appends `branch (some [], none)` and runs the
  then-arm into the new left child;
* in each case `merge` restores the outer cursor and advances it by one.

Returns the updated recorded list and cursor. -/
def runSeq (fuel : Nat) (prog : List Stmt) (recL : List CNode) (p : Nat) :
    List CNode × Nat :=
  match fuel with
  | 0 => (recL, p)
  | f + 1 =>
    match prog with
    | [] => (recL, p)
    | .opS name :: rest =>
      runSeq f rest (if p < recL.length then recL else recL ++ [.opN name]) (p + 1)
    | .iteS A B :: rest =>
      if hp : p < recL.length then
        match recL.get ⟨p, hp⟩ with
        | .branch l r =>
          if traverseO f l = false then
            runSeq f rest (recL.set p (.branch (some (runSeq f A (l.getD []) 0).1) r)) (p + 1)
          else
            runSeq f rest (recL.set p (.branch l (some (runSeq f B (r.getD []) 0).1))) (p + 1)
        | _ => (recL, p + 1)
      else
        runSeq f rest (recL ++ [.branch (some (runSeq f A [] 0).1) none]) (p + 1)

/-- Fuel that amply covers every program considered in this file. -/
def traceFuel : Nat := 200

/-- `trace` (`compiler.py`): re-invoke the traced program exactly ten
times, resetting the cursor to `0` each time, and return the resulting
tree.  There is no completeness check and no abort in the source: the
loop is `for _ in range(10)` with the `while not ... is_complete()`
variant commented out. -/
def traceModel (prog : List Stmt) : List CNode :=
  Nat.iterate (fun recL => (runSeq traceFuel prog recL 0).1) 10 []

/-- A fully-nested conditional program of depth `d`: it has `2^d`
distinct paths, so the tracer needs `2^d` re-invocations to explore all of
them. -/
def nestedProg : Nat → List Stmt
  | 0 => [.opS "leaf"]
  | d + 1 => [.iteS (nestedProg d) (nestedProg d)]

/-! ## Expression lowering and linearisation (`compiler.py`)

`linearize_expr` turns a recorded expression tuple into stack-machine
opcodes, and `linearize_tree` flattens the call tree, numbering branch
labels `UID0, UID1, ...` with a monotone counter.  A label `UIDn` is
modelled by its number `n`. -/

/-- A pushable literal (`("push", value)` carries a Python `int` or
`str`). -/
inductive PVal where
  | intV (n : Nat)
  | strV (s : String)
deriving DecidableEq, Repr

/-- Recorded expression trees: the tuples built by the `Tracer` operator
overloads (`compiler.py`).  `indirectE name` stands for the tuple
`("indirect_lookup", t)` whose operand `t` is itself `("lookup", name)`,
which is the only shape the tracer produces. -/
inductive Expr where
  | litI (n : Nat)
  | litS (s : String)
  | eqE (a b : Expr)
  | neqE (a b : Expr)
  | ltE (a b : Expr)
  | gtE (a b : Expr)
  | leE (a b : Expr)
  | geE (a b : Expr)
  | andE (a b : Expr)
  | orE (a b : Expr)
  | notE (a : Expr)
  | catE (a b : Expr)
  | addE (a b : Expr)
  | subE (a b : Expr)
  | mod2E (a : Expr)
  | lookupE (name : String)
  | indirectE (name : String)
  | isanyE (a : Expr) (opts : List String)
  | fenE (a : Expr)
  | nopE
deriving DecidableEq, Repr

/-- The opcodes emitted by linearisation (instruction name plus build-time
arguments).  Branch labels are the numbers of the `UIDn` tags. -/
inductive Opcode where
  | push (v : PVal)
  | eqO
  | neqO
  | stringCatO
  | booleanAndO
  | booleanOrO
  | booleanNotO
  | lessThanO
  | greaterThanO
  | lessEqualThanO
  | greaterEqualThanO
  | toUnaryO
  | mod2UnaryO
  | binaryAddO
  | binarySubtractO
  | lookupO (v : String)
  | indirectLookupO
  | isanyO (opts : List String)
  | fenO
  | condO (tag : Nat)
  | pauseO (tag : Nat)
  | reactivateO (tag : Nat)
  | assignPopO (v : String)
  | rawO (name : String)
deriving DecidableEq, Repr

/-- `linearize_expr` (`compiler.py`).  Case order follows the source
dispatch; note that the source tests `op == '+'` and `op == '-'` *before*
the `op in unary_ops` test, so the `unary_ops` arm (`add_unary` /
`sub_unary`) is dead code and `+` lowers its *left* operand first, while
every other binary operator lowers its right operand first. -/
def linearizeExpr : Expr → List Opcode
  | .litI n => [.push (.intV n)]
  | .litS s => [.push (.strV s)]
  | .eqE a b => linearizeExpr b ++ linearizeExpr a ++ [.eqO]
  | .neqE a b => linearizeExpr b ++ linearizeExpr a ++ [.neqO]
  | .catE a b => linearizeExpr b ++ linearizeExpr a ++ [.stringCatO]
  | .andE a b => linearizeExpr b ++ linearizeExpr a ++ [.booleanAndO]
  | .orE a b => linearizeExpr b ++ linearizeExpr a ++ [.booleanOrO]
  | .ltE a b => linearizeExpr b ++ .toUnaryO :: (linearizeExpr a ++ [.toUnaryO, .lessThanO])
  | .gtE a b => linearizeExpr b ++ .toUnaryO :: (linearizeExpr a ++ [.toUnaryO, .greaterThanO])
  | .leE a b => linearizeExpr b ++ .toUnaryO :: (linearizeExpr a ++ [.toUnaryO, .lessEqualThanO])
  | .geE a b => linearizeExpr b ++ .toUnaryO :: (linearizeExpr a ++ [.toUnaryO, .greaterEqualThanO])
  | .notE a => linearizeExpr a ++ [.booleanNotO]
  | .addE a b => linearizeExpr a ++ (linearizeExpr b ++ [.binaryAddO])
  | .subE a b => linearizeExpr b ++ (linearizeExpr a ++ [.binarySubtractO])
  | .mod2E a => linearizeExpr a ++ [.toUnaryO, .mod2UnaryO]
  | .lookupE v => [.lookupO v]
  | .indirectE v => [.lookupO v, .indirectLookupO]
  | .isanyE a opts => linearizeExpr a ++ [.isanyO opts]
  | .fenE a => linearizeExpr a ++ [.fenO]
  | .nopE => []

/-- The value recorded by an `assign` node: a traced expression, or a
literal `int` / `str`. -/
inductive AVal where
  | tracerV (e : Expr)
  | intV (n : Nat)
  | strV (s : String)
deriving DecidableEq, Repr

mutual
/-- A node of the (completed) call tree as consumed by
`linearize_tree`: an assignment, a lookup, a two-armed branch, or an
opaque instruction emitted verbatim (the long whitelist of opcode names,
whose build-time arguments play no role in the claims below). -/
inductive TNode where
  | assignN (key : String) (v : AVal)
  | lookupN (key : String)
  | branchN (cond : Expr) (l r : TList)
  | rawN (name : String)
deriving Repr
/-- A list of call-tree nodes (a subtree of the call tree). -/
inductive TList where
  | nil
  | cons (hd : TNode) (tl : TList)
deriving Repr
end

mutual
/-- `linearize_tree`'s handling of a single node, threading the label
counter: a branch allocates `tag1 = n` and `tag2 = n + 1` (both are always
allocated, in this order, before the subtrees are linearised), lowers the
condition, emits `cond tag1`, the true arm, and then either
`pause tag2; reactivate tag1; <false arm>; reactivate tag2` when the
lowered false arm is non-empty, or just `reactivate tag1` otherwise. -/
def linNode : TNode → Nat → List Opcode × Nat
  | .assignN key (.tracerV e), n => (linearizeExpr e ++ [.assignPopO key], n)
  | .assignN key (.intV v), n => ([.push (.intV v), .assignPopO key], n)
  | .assignN key (.strV v), n => ([.push (.strV v), .assignPopO key], n)
  | .lookupN key, n => ([.lookupO key], n)
  | .rawN name, n => ([.rawO name], n)
  | .branchN c l r, n =>
    let L := linList l (n + 2)
    let R := linList r L.2
    (linearizeExpr c ++ .condO n :: (L.1 ++
       (if R.1 = [] then [.reactivateO n]
        else .pauseO (n + 1) :: .reactivateO n :: (R.1 ++ [.reactivateO (n + 1)]))),
     R.2)
/-- `linearize_subtree`: linearise the nodes in order, threading the
label counter left to right. -/
def linList : TList → Nat → List Opcode × Nat
  | .nil, n => ([], n)
  | .cons t ts, n =>
    let a := linNode t n
    let b := linList ts a.2
    (a.1 ++ b.1, b.2)
end

/-- The branch labels mentioned by an opcode stream (the arguments of
`cond` / `pause` / `reactivate`). -/
def tagsOf : List Opcode → List Nat
  | [] => []
  | .condO n :: rest => n :: tagsOf rest
  | .pauseO n :: rest => n :: tagsOf rest
  | .reactivateO n :: rest => n :: tagsOf rest
  | _ :: rest => tagsOf rest

/-! ## Unary/binary arithmetic instructions (`instruction_set.py`)

All of their rules are anchored on `%%\n#stack:\n` and continue without a
`\n` before their first group, so each rule reads and rewrites only the
first body line (or the first two, when the pattern contains an inner
`\n`).  The greedy sub-matches `A*` and `[01]*` are modelled by the span
helpers below. -/

/-- Greedy `A*`: the number of leading `A`s and the remaining suffix. -/
def spanAs : List Char → Nat × List Char
  | [] => (0, [])
  | c :: cs => if c = 'A' then ((spanAs cs).1 + 1, (spanAs cs).2) else (0, c :: cs)

/-- Greedy `[01]*`: the leading run of bit characters and the suffix. -/
def spanBits : List Char → List Char × List Char
  | [] => ([], [])
  | c :: cs =>
    if isBit c then (c :: (spanBits cs).1, (spanBits cs).2) else ([], c :: cs)

/-- Does the whole line match `A*` (i.e. consist of `A`s only)? -/
def allAs (l : Line) : Bool := l.all (fun c => c = 'A')

/-- `from_unary`, per-bit rule (a):
`(%%\n#stack:\nint[01]*)(A{2^b})(A*)` → `\g<1>1\g<3>`.
The line must start with `int`, then its (greedy, possibly empty) run of
bit characters, then at least `2^b` copies of `A`; the rule deletes those
`A`s and appends a `1` to the bit run.  Whatever follows the greedy `A*`
is not part of the match and is kept. -/
def fromRuleA (b : Nat) (l : Line) : Line :=
  match l with
  | 'i' :: 'n' :: 't' :: rest =>
    if 2 ^ b ≤ (spanAs (spanBits rest).2).1 then
      'i' :: 'n' :: 't' ::
        ((spanBits rest).1 ++ '1' ::
          (unary ((spanAs (spanBits rest).2).1 - 2 ^ b) ++ (spanAs (spanBits rest).2).2))
    else l
  | _ => l

/-- `from_unary`, per-bit rule (b):
`(%%\n#stack:\n)int([01]{9-b})([^01]A*)` → `\1int\g<2>0\g<3>`.
The line must start with `int` followed by exactly `9-b` bit characters
and then a non-bit character; a `0` is inserted after those bits.  When
the line ends right after the bits, the `[^01]` of the pattern matches the
newline that terminates the line in the serialized state, so the rule
also fires then. -/
def fromRuleB (b : Nat) (l : Line) : Line :=
  match l with
  | 'i' :: 'n' :: 't' :: rest =>
    if ((rest.take (9 - b)).length == 9 - b) && (rest.take (9 - b)).all isBit &&
       (match rest.drop (9 - b) with
        | [] => true
        | c :: _ => !(isBit c)) then
      'i' :: 'n' :: 't' :: (rest.take (9 - b) ++ '0' :: rest.drop (9 - b))
    else l
  | _ => l

/-- The `from_unary` rules for bits `b, b-1, ..., 0`, each bit
contributing rule (a) then rule (b), in source order
(`for bit in reversed(range(10))`). -/
def fromUnarySteps : Nat → Line → Line
  | 0, l => fromRuleB 0 (fromRuleA 0 l)
  | b + 1, l => fromUnarySteps b (fromRuleB (b + 1) (fromRuleA (b + 1) l))

/-- The whole `from_unary` instruction on the first stack line: the first
rule `(%%\n#stack:\n)(A*)` → `\1int\2` inserts `int` at the start of the
line (the greedy `A*` prefix is written back unchanged and the rest of
the line is untouched), then the ten per-bit rules run. -/
def fromUnaryLine (l : Line) : Line := fromUnarySteps 9 ('i' :: 'n' :: 't' :: l)

/-- The `from_unary` instruction on a thread. -/
def applyFromUnary : Thread → Thread := onActive (onFirstLine fromUnaryLine)

/-- `to_unary`, per-bit rule:
`(%%\n#stack:\n)int([01]{9-b})1([01]{b})` → `\1int\g<2>0\g<3>` + `A`*2^b.
If the line starts with `int`, has `9-b` bit characters, then a `1`, then
`b` bit characters, the `1` becomes `0` and `2^b` copies of `A` are
inserted right after the matched bits (the unmatched tail keeps its
place after them). -/
def toRule (b : Nat) (l : Line) : Line :=
  match l with
  | 'i' :: 'n' :: 't' :: rest =>
    match rest.drop (9 - b) with
    | '1' :: post =>
      if ((rest.take (9 - b)).length == 9 - b) && (rest.take (9 - b)).all isBit &&
         ((post.take b).length == b) && (post.take b).all isBit then
        'i' :: 'n' :: 't' ::
          (rest.take (9 - b) ++ '0' :: (post.take b ++ (unary (2 ^ b) ++ post.drop b)))
      else l
    | _ => l
  | _ => l

/-- `to_unary`, final rule: `(%%\n#stack:\n)(int0*)` → `\1` deletes the
leading `int` and the (greedy) run of `0`s that follows it. -/
def toClean (l : Line) : Line :=
  match l with
  | 'i' :: 'n' :: 't' :: rest => rest.dropWhile (fun c => c = '0')
  | _ => l

/-- The `to_unary` per-bit rules for bits `b, b-1, ..., 0` in source
order. -/
def toUnarySteps : Nat → Line → Line
  | 0, l => toRule 0 l
  | b + 1, l => toUnarySteps b (toRule (b + 1) l)

/-- The whole `to_unary` instruction on the first stack line. -/
def toUnaryLine (l : Line) : Line := toClean (toUnarySteps 9 l)

/-- The `to_unary` instruction on a thread. -/
def applyToUnary : Thread → Thread := onActive (onFirstLine toUnaryLine)

/-- `add_unary`: `(%%\n#stack:\n)(A*)\n(A*)\n` → `\1\2\3\n` concatenates
the top two stack lines when both consist of `A`s only. -/
def addUnaryB : List Line → List Line
  | a :: b :: rest => if allAs a && allAs b then (a ++ b) :: rest else a :: b :: rest
  | l => l

/-- The `add_unary` instruction on a thread. -/
def applyAddUnary : Thread → Thread := onActive addUnaryB

/-- `sub_unary` rule 1: `(%%\n#stack:\n)(A*)\n\2(A*)\n` → `` \1`sub\3\n ``.
The top line is a unary number and the second line extends it (so the
second is at least as large); both are replaced by a single marker line
containing the difference. -/
def subRule1 : List Line → List Line
  | a :: b :: rest =>
    if allAs a && allAs b && a.length ≤ b.length then
      (btChar :: 's' :: 'u' :: 'b' :: b.drop a.length) :: rest
    else a :: b :: rest
  | l => l

/-- `sub_unary` rule 2: `(%%\n#stack:\n)(A*)\n(A*)\n` → `` \1`zero\n ``.
Fires when both top lines are unary (after rule 1, only in the
top-smaller case, since rule 1 leaves a line starting with a backtick). -/
def subRule2 : List Line → List Line
  | a :: b :: rest =>
    if allAs a && allAs b then (btChar :: 'z' :: 'e' :: 'r' :: 'o' :: []) :: rest
    else a :: b :: rest
  | l => l

/-- `sub_unary` rule 3: `` `sub(A*)\n `` → `\1\n` removes a `` `sub ``
marker whose line-suffix consists of `A`s only.  This rule is not
anchored, so every line of the text is scanned. -/
def stripSubMarker : Line → Line
  | [] => []
  | c :: cs =>
    if c = btChar ∧ ('s' :: 'u' :: 'b' :: [] : Line).isPrefixOf cs ∧
       (cs.drop 3).all (fun x => x = 'A') then cs.drop 3
    else c :: stripSubMarker cs

/-- `sub_unary` rule 4: `` `zero\n `` → `\n` erases a line-final
`` `zero `` marker (again unanchored, every line is scanned). -/
def stripZeroMarker : Line → Line
  | [] => []
  | c :: cs =>
    if c = btChar ∧ cs = 'z' :: 'e' :: 'r' :: 'o' :: [] then []
    else c :: stripZeroMarker cs

/-- The `sub_unary` instruction on a thread: rules 1 and 2 on the active
stack top, then the global marker-erasing rules 3 and 4 on every line
(thread tags contain no backtick by the state grammar, so only body lines
can be affected). -/
def applySubUnary (t : Thread) : Thread :=
  let t1 := onActive (fun body => subRule2 (subRule1 body)) t
  { t1 with body := (t1.body.map stripSubMarker).map stripZeroMarker }

/-! ## Comparison instructions -/

/-- `eq` rule 1: `(%%\n#stack:\n)([^\n]*)\n\2\n` → `` \1`True\n ``
replaces two identical top lines by a marked `True`. -/
def eqRule1 : List Line → List Line
  | a :: b :: rest => if a = b then (btChar :: "True".data) :: rest else a :: b :: rest
  | l => l

/-- `eq` rule 2: `(%%\n#stack:\n)([^`][^\n]*)\n([^\n]*)\n` → `\1False\n`.
The class `[^`]` also matches a newline, so when the first body line is
*empty* the match instead consumes the empty line, the whole second line
and one further line (which must therefore exist); with a non-empty,
non-marked first line it consumes exactly the top two lines. -/
def eqRule2 : List Line → List Line
  | a :: b :: rest =>
    match a with
    | [] =>
      match rest with
      | _ :: rest2 => "False".data :: rest2
      | [] => a :: b :: rest
    | c :: _ => if c = btChar then a :: b :: rest else "False".data :: rest
  | l => l

/-- The global backtick-erasing cleanup rule `` ` `` → (empty), applied to
the entire text. -/
def stripBTLine (l : Line) : Line := l.filter (fun c => c ≠ btChar)

/-- Backtick cleanup over a whole thread (tag and body). -/
def stripBTThread (t : Thread) : Thread :=
  { tag := t.tag.map stripBTLine, body := t.body.map stripBTLine }

/-- The `eq` instruction on a thread. -/
def applyEq (t : Thread) : Thread :=
  stripBTThread (onActive (fun body => eqRule2 (eqRule1 body)) t)

/-- `greater_than` rule 1: `(%%\n#stack:\n)(A*)(A+)\n\2\n` →
`` \1`True\n ``: the top line is unary and strictly extends the unary
second line. -/
def gtRule1 : List Line → List Line
  | a :: b :: rest =>
    if allAs a && allAs b && b.length < a.length then
      (btChar :: "True".data) :: rest
    else a :: b :: rest
  | l => l

/-- `greater_than` rule 2: `(%%\n#stack:\n)([^`\n]*)\n([^\n]*)\n` →
`\1False\n`: fires when the whole first line is backtick-free (an empty
first line is fine here, unlike in `eq`). -/
def gtRule2 : List Line → List Line
  | a :: b :: rest =>
    if a.all (fun c => c ≠ btChar) then "False".data :: rest else a :: b :: rest
  | l => l

/-- The `greater_than` instruction on a thread. -/
def applyGt (t : Thread) : Thread :=
  stripBTThread (onActive (fun body => gtRule2 (gtRule1 body)) t)

/-- The `less_than` instruction: its rule list is `swap`'s rules followed
by `greater_than`'s rules. -/
def applyLt (t : Thread) : Thread :=
  stripBTThread (onActive (fun body => gtRule2 (gtRule1 (swapB body))) t)

/-! ## `lookup` and `join_pop` at state level -/

/-- Does this line define the variable `var`, and with which value?
(A variable line is `#var: value`.) -/
def varValue? (var : List Char) (l : Line) : Option Line :=
  if (('#' :: (var ++ ':' :: ' ' :: [])) : Line).isPrefixOf l then
    some (l.drop (var.length + 3))
  else none

/-- Find the value of `var` in a thread body.  The greedy `[^%]*` of the
`lookup` pattern reaches the *last* matching variable line (variable
names are unique within a thread, so at most one line matches anyway). -/
def findVar (var : List Char) (body : List Line) : Option Line :=
  body.reverse.findSome? (varValue? var)

/-- `lookup NAME` on one thread:
`(%%\n#stack:)([^%]*\n#NAME: )([^#%]*)\n` → `\1\n\3\2\3\n` pushes the
variable's value as the new top stack line of an active thread that has
the variable; the pattern cannot cross a `%`, so it is confined to a
single thread. -/
def lookupThread (var : List Char) (t : Thread) : Thread :=
  if t.tag = none then
    match findVar var t.body with
    | some v => { t with body := v :: t.body }
    | none => t
  else t

/-- The `lookup` instruction on a whole state: the global substitution
rewrites every active thread that matches, independently. -/
def applyLookup (var : List Char) (s : MState) : MState := s.map (lookupThread var)

/-- `join_pop TAG` on a whole state:
`(%%\n#stack:\n)(.*\n)([^%]*)%TAG\n#stack:\n(.*\n)[^%]*` → `\1\4\2\3`.
A match needs an active thread with a non-empty body *immediately*
followed (the `[^%]*` cannot cross another thread header) by a
`%TAG`-thread with a non-empty body; the tagged thread's first line is
moved above the active thread's first line and the rest of the tagged
thread is deleted.  The global substitution keeps scanning the remaining
text for further matches. -/
def applyJoinPop (tag : List Char) : MState → MState
  | [] => []
  | [t] => [t]
  | t1 :: t2 :: ts =>
    match t1.tag, t1.body, t2.tag, t2.body with
    | none, l :: r1, some tg, m :: _ =>
      if tg = tag then ⟨none, m :: l :: r1⟩ :: applyJoinPop tag ts
      else t1 :: applyJoinPop tag (t2 :: ts)
    | _, _, _, _ => t1 :: applyJoinPop tag (t2 :: ts)

/-! # Theorems -/

/-! ## Basic facts about unary runs and helper functions -/

theorem unary_append (m n : Nat) : unary m ++ unary n = unary (m + n) :=
  (List.replicate_add m n 'A').symm

theorem unary_length (n : Nat) : (unary n).length = n :=
  List.length_replicate n 'A'

theorem allAs_unary (n : Nat) : allAs (unary n) = true := by
  simp [allAs, unary, List.all_eq_true, List.mem_replicate]

theorem unary_inj {m n : Nat} (h : unary m = unary n) : m = n := by
  have := congrArg List.length h
  simpa [unary_length] using this

theorem bt_not_mem_unary (n : Nat) : btChar ∉ unary n := by
  intro h
  rw [unary, List.mem_replicate] at h
  exact absurd h.2 (by decide)

theorem bt_not_head_unary (n : Nat) : (unary n).head? ≠ some btChar := by
  cases n with
  | zero => simp [unary]
  | succ n => simp [unary, List.replicate_succ]; decide

theorem unary_succ (n : Nat) : unary (n + 1) = 'A' :: unary n := by
  rw [unary, List.replicate_succ]; rfl

theorem spanAs_unary_append (n : Nat) (r : List Char) (hr : r.head? ≠ some 'A') :
    spanAs (unary n ++ r) = (n, r) := by
  induction n with
  | zero =>
    cases r with
    | nil => simp [unary, spanAs]
    | cons c cs =>
      have hc : c ≠ 'A' := by intro h; exact hr (by simp [h])
      simp [unary, spanAs, hc]
  | succ n ih =>
    rw [unary_succ, List.cons_append, spanAs]
    simp [ih]

theorem spanAs_unary (n : Nat) : spanAs (unary n) = (n, []) := by
  have := spanAs_unary_append n [] (by simp)
  simpa using this

theorem spanBits_append (p r : List Char) (hp : ∀ c ∈ p, isBit c = true)
    (hr : ∀ c, r.head? = some c → isBit c = false) :
    spanBits (p ++ r) = (p, r) := by
  induction p with
  | nil =>
    cases r with
    | nil => simp [spanBits]
    | cons c cs =>
      have := hr c (by simp)
      simp [spanBits, this]
  | cons c cs ih =>
    have hc : isBit c = true := hp c (by simp)
    have ih2 := ih (fun d hd => hp d (by simp [hd]))
    simp [spanBits, hc, ih2]

theorem head_unary_not_bit (k : Nat) :
    ∀ c, (unary k).head? = some c → isBit c = false := by
  cases k with
  | zero => simp [unary]
  | succ k =>
    intro c hc
    rw [unary_succ] at hc
    simp at hc
    subst hc
    decide

theorem binChars_length (w m : Nat) : (binChars w m).length = w := by
  induction w generalizing m with
  | zero => simp [binChars]
  | succ w ih => simp [binChars, ih]

theorem binChars_bits (w m : Nat) : ∀ c ∈ binChars w m, isBit c = true := by
  induction w generalizing m with
  | zero => simp [binChars]
  | succ w ih =>
    intro c hc
    rw [binChars] at hc
    rcases List.mem_cons.mp hc with h | h
    · subst h
      by_cases hb : 2 ^ w ≤ m % 2 ^ w + 2 ^ w * (m / 2 ^ w) <;> by_cases hb2 : 2 ^ w ≤ m <;>
        simp [hb2, isBit]
    · exact ih _ c h

theorem fromRuleA_fire (b : Nat) (P : List Char) (k : Nat)
    (hP : ∀ c ∈ P, isBit c = true) (h : 2 ^ b ≤ k) :
    fromRuleA b ('i' :: 'n' :: 't' :: (P ++ unary k)) =
      'i' :: 'n' :: 't' :: (P ++ '1' :: unary (k - 2 ^ b)) := by
  have hsb := spanBits_append P (unary k) hP (head_unary_not_bit k)
  simp [fromRuleA, hsb, spanAs_unary, h]

theorem fromRuleA_skip (b : Nat) (P : List Char) (k : Nat)
    (hP : ∀ c ∈ P, isBit c = true) (h : k < 2 ^ b) :
    fromRuleA b ('i' :: 'n' :: 't' :: (P ++ unary k)) =
      'i' :: 'n' :: 't' :: (P ++ unary k) := by
  have hsb := spanBits_append P (unary k) hP (head_unary_not_bit k)
  simp [fromRuleA, hsb, spanAs_unary, Nat.not_le.mpr h]

theorem fromRuleB_skip (b : Nat) (P tl : List Char) (hlen : P.length = 9 - b) :
    fromRuleB b ('i' :: 'n' :: 't' :: (P ++ '1' :: tl)) =
      'i' :: 'n' :: 't' :: (P ++ '1' :: tl) := by
  have hdrop : (P ++ '1' :: tl).drop (9 - b) = '1' :: tl := List.drop_left' hlen
  simp [fromRuleB, hdrop, isBit]

theorem fromRuleB_fire (b : Nat) (P : List Char) (k : Nat)
    (hP : ∀ c ∈ P, isBit c = true) (hlen : P.length = 9 - b) :
    fromRuleB b ('i' :: 'n' :: 't' :: (P ++ unary k)) =
      'i' :: 'n' :: 't' :: (P ++ '0' :: unary k) := by
  have htake : (P ++ unary k).take (9 - b) = P := List.take_left' hlen
  have hdrop : (P ++ unary k).drop (9 - b) = unary k := List.drop_left' hlen
  have hall : P.all isBit = true := List.all_eq_true.mpr hP
  cases k with
  | zero =>
    have htake' : P.take (9 - b) = P := by rw [← hlen]; exact List.take_length P
    have hdrop' : P.drop (9 - b) = [] := by rw [← hlen]; exact List.drop_length P
    simp [fromRuleB, unary, htake', hdrop', hlen]
    exact hP
  | succ k =>
    rw [unary_succ] at hdrop ⊢
    simp [fromRuleB, htake, hdrop, hlen, hall, isBit]

theorem min_mod_helper (q k : Nat) (hq : 1 ≤ q) (h : q ≤ k) :
    min k (2 * q - 1) % q = min (k - q) (q - 1) ∧
    k - q - (q - 1) = k - (2 * q - 1) := by
  refine ⟨?_, by omega⟩
  rcases Nat.lt_or_ge k (2 * q) with hlt | hge
  · have h1 : min k (2 * q - 1) = k := Nat.min_eq_left (by omega)
    have h2 : k % q = k - q := by
      rw [Nat.mod_eq_sub_mod h, Nat.mod_eq_of_lt (by omega)]
    have h3 : min (k - q) (q - 1) = k - q := Nat.min_eq_left (by omega)
    rw [h1, h2, h3]
  · have h1 : min k (2 * q - 1) = 2 * q - 1 := Nat.min_eq_right (by omega)
    have h2 : (2 * q - 1) % q = q - 1 := by
      rw [Nat.mod_eq_sub_mod (by omega)]
      have he : 2 * q - 1 - q = q - 1 := by omega
      rw [he, Nat.mod_eq_of_lt (by omega)]
    have h3 : min (k - q) (q - 1) = q - 1 := Nat.min_eq_right (by omega)
    rw [h1, h2, h3]

/-- The per-bit rules of `from_unary` implement greedy binary conversion:
starting from `int` + a bit run `P` + `k` unary `A`s, the bits `b..0`
saturate at `2^(b+1) - 1` and leave the excess `A`s in place. -/
theorem fromSteps_inv : ∀ b, b ≤ 9 → ∀ (P : List Char) (k : Nat),
    (∀ c ∈ P, isBit c = true) → P.length = 9 - b →
    fromUnarySteps b ('i' :: 'n' :: 't' :: (P ++ unary k)) =
      'i' :: 'n' :: 't' :: (P ++ (binChars (b + 1) (min k (2 ^ (b + 1) - 1)) ++
        unary (k - (2 ^ (b + 1) - 1)))) := by
  intro b
  induction b with
  | zero =>
    intro _ P k hP hlen
    rw [fromUnarySteps]
    by_cases h : 1 ≤ k
    · rw [fromRuleA_fire 0 P k hP (by simpa using h)]
      rw [fromRuleB_skip 0 P (unary (k - 2 ^ 0)) hlen]
      have hmin : min k 1 = 1 := Nat.min_eq_right h
      have hbc : binChars 1 1 = ['1'] := by decide
      simp [hmin, hbc]
    · have hk : k = 0 := by omega
      subst hk
      rw [fromRuleA_skip 0 P 0 hP (by norm_num)]
      rw [fromRuleB_fire 0 P 0 hP hlen]
      have hbc : binChars 1 0 = ['0'] := by decide
      simp [hbc, unary]
  | succ b ih =>
    intro hb P k hP hlen
    have hb' : b ≤ 9 := by omega
    have hq1 : 1 ≤ 2 ^ (b + 1) := Nat.one_le_two_pow
    have h2q : 2 ^ (b + 1 + 1) = 2 * 2 ^ (b + 1) := by
      rw [pow_succ]; ring
    rw [fromUnarySteps]
    by_cases h : 2 ^ (b + 1) ≤ k
    · rw [fromRuleA_fire (b + 1) P k hP h]
      rw [fromRuleB_skip (b + 1) P (unary (k - 2 ^ (b + 1))) hlen]
      have hre : 'i' :: 'n' :: 't' :: (P ++ '1' :: unary (k - 2 ^ (b + 1))) =
          'i' :: 'n' :: 't' :: ((P ++ ['1']) ++ unary (k - 2 ^ (b + 1))) := by simp
      rw [hre]
      rw [ih hb' (P ++ ['1'])
            (k - 2 ^ (b + 1))
            (by intro c hc
                rcases List.mem_append.mp hc with hc | hc
                · exact hP c hc
                · simp at hc; subst hc; decide)
            (by simp [hlen]; omega)]
      have hmm := min_mod_helper (2 ^ (b + 1)) k hq1 h
      have htop : 2 ^ (b + 1) ≤ min k (2 ^ (b + 1 + 1) - 1) := by
        rw [h2q]; omega
      have hbc : binChars (b + 1 + 1) (min k (2 ^ (b + 1 + 1) - 1)) =
          '1' :: binChars (b + 1) (min (k - 2 ^ (b + 1)) (2 ^ (b + 1) - 1)) := by
        rw [binChars, if_pos htop]
        congr 1
        rw [← hmm.1, h2q]
      have hres : k - 2 ^ (b + 1) - (2 ^ (b + 1) - 1) = k - (2 ^ (b + 1 + 1) - 1) := by
        rw [h2q]; omega
      rw [hbc, hres]
      simp
    · have hklt : k < 2 ^ (b + 1) := Nat.not_le.mp h
      rw [fromRuleA_skip (b + 1) P k hP hklt]
      rw [fromRuleB_fire (b + 1) P k hP hlen]
      have hre : 'i' :: 'n' :: 't' :: (P ++ '0' :: unary k) =
          'i' :: 'n' :: 't' :: ((P ++ ['0']) ++ unary k) := by simp
      rw [hre]
      rw [ih hb' (P ++ ['0']) k
            (by intro c hc
                rcases List.mem_append.mp hc with hc | hc
                · exact hP c hc
                · simp at hc; subst hc; decide)
            (by simp [hlen]; omega)]
      have hmin1 : min k (2 ^ (b + 1 + 1) - 1) = k := Nat.min_eq_left (by omega)
      have hmin2 : min k (2 ^ (b + 1) - 1) = k := Nat.min_eq_left (by omega)
      have hbc : binChars (b + 1 + 1) (min k (2 ^ (b + 1 + 1) - 1)) =
          '0' :: binChars (b + 1) k := by
        rw [binChars, hmin1, if_neg (by omega), Nat.mod_eq_of_lt hklt]
      have hres1 : k - (2 ^ (b + 1) - 1) = k - (2 ^ (b + 1 + 1) - 1) := by omega
      rw [hbc, hmin2, hres1]
      simp

/-- `from_unary` on a pure unary line: the greedy conversion saturates at
`1023` and leaves the excess `A`s after the ten bits. -/
theorem fromUnaryLine_unary (k : Nat) :
    fromUnaryLine (unary k) =
      'i' :: 'n' :: 't' :: (binChars 10 (min k 1023) ++ unary (k - 1023)) := by
  have h := fromSteps_inv 9 (by omega) [] k (by simp) (by simp)
  have h10 : (2 : Nat) ^ (9 + 1) - 1 = 1023 := by norm_num
  rw [fromUnaryLine]
  simpa [h10] using h

/-- `from_unary` is exact on unary values up to `1023`. -/
theorem fromUnaryLine_le (k : Nat) (h : k ≤ 1023) :
    fromUnaryLine (unary k) = binLit k := by
  rw [fromUnaryLine_unary, Nat.min_eq_left h, Nat.sub_eq_zero_of_le h]
  simp [binLit, unary]

/-! ## C2: `add_unary` followed by `from_unary` -/

/-- C2 (counterexample).  For `x = y = 512` (both below `2^10`), the
claim demands the literal of `(512+512) mod 2^10 = 0` on top of the
stack; the code instead leaves `int1111111111` followed by a left-over
`A`: `from_unary`'s greedy rules saturate at `1023` and do not wrap
around. -/
theorem c2_overflow :
    (applyFromUnary (applyAddUnary ⟨none, [unary 512, unary 512]⟩)).body ≠
      [binLit ((512 + 512) % 2 ^ 10)] := by
  have h1 : addUnaryB [unary 512, unary 512] = [unary 1024] := by
    simp [addUnaryB, allAs_unary, unary_append]
  have h2 : fromUnaryLine (unary 1024) =
      'i' :: 'n' :: 't' :: (binChars 10 1023 ++ unary 1) := by
    rw [fromUnaryLine_unary]
    norm_num
  have hstate : applyFromUnary (applyAddUnary ⟨none, [unary 512, unary 512]⟩) =
      ⟨none, ['i' :: 'n' :: 't' :: (binChars 10 1023 ++ unary 1)]⟩ := by
    simp [applyAddUnary, applyFromUnary, onActive, h1, onFirstLine, h2]
  rw [hstate]
  intro hcon
  simp only [List.cons.injEq, and_true] at hcon
  have hl := congrArg List.length hcon
  simp [binLit, binChars_length, unary_length] at hl

/-- C2 (amended).  With `to_unary(x)` pushed first and `to_unary(y)`
pushed second (so `A^y` is the top line and `A^x` the next), `add_unary`
followed by `from_unary` leaves exactly the fixed-width binary literal of
`x + y` on top of the stack *provided the sum does not exceed `1023`*;
sums of `1024` or more saturate at `1023` and leave the excess `A`s
behind the ten bits (see the counterexample). -/
theorem c2_add_from_unary (x y : Nat) (rest : List Line)
    (hx : x < 1024) (hy : y < 1024) (hsum : x + y ≤ 1023) :
    applyFromUnary (applyAddUnary ⟨none, unary y :: unary x :: rest⟩) =
      ⟨none, binLit (x + y) :: rest⟩ := by
  have h1 : addUnaryB (unary y :: unary x :: rest) = unary (x + y) :: rest := by
    simp [addUnaryB, allAs_unary, unary_append, Nat.add_comm y x]
  simp [applyAddUnary, applyFromUnary, onActive, h1, onFirstLine,
        fromUnaryLine_le (x + y) hsum]

/-- C2 (witness): `3 + 5` computed through the unary pipeline. -/
theorem c2_add_from_unary_witness :
    applyFromUnary (applyAddUnary ⟨none, [unary 5, unary 3]⟩) = ⟨none, [binLit 8]⟩ :=
  c2_add_from_unary 3 5 [] (by norm_num) (by norm_num) (by norm_num)

/-! ## `to_unary` and C4 -/

theorem toRule_fire (b : Nat) (P Q : List Char) (k : Nat)
    (hP : ∀ c ∈ P, isBit c = true) (hPl : P.length = 9 - b)
    (hQ : ∀ c ∈ Q, isBit c = true) (hQl : Q.length = b) :
    toRule b ('i' :: 'n' :: 't' :: (P ++ '1' :: (Q ++ unary k))) =
      'i' :: 'n' :: 't' :: (P ++ '0' :: (Q ++ unary (2 ^ b + k))) := by
  have hdrop : (P ++ '1' :: (Q ++ unary k)).drop (9 - b) = '1' :: (Q ++ unary k) :=
    List.drop_left' hPl
  have htake : (P ++ '1' :: (Q ++ unary k)).take (9 - b) = P := List.take_left' hPl
  have htq : (Q ++ unary k).take b = Q := List.take_left' hQl
  have hdq : (Q ++ unary k).drop b = unary k := List.drop_left' hQl
  simp only [toRule, hdrop, htake, htq, hdq, hPl, hQl]
  simp [List.all_eq_true.mpr hP, List.all_eq_true.mpr hQ, unary_append]

theorem toRule_skip (b : Nat) (P rest : List Char) (hPl : P.length = 9 - b) :
    toRule b ('i' :: 'n' :: 't' :: (P ++ '0' :: rest)) =
      'i' :: 'n' :: 't' :: (P ++ '0' :: rest) := by
  have hdrop : (P ++ '0' :: rest).drop (9 - b) = '0' :: rest := List.drop_left' hPl
  simp only [toRule, hdrop]
  split
  · rename_i heq
    simp at heq
  · rfl

theorem zeros_length (n : Nat) : (zeros n).length = n := List.length_replicate n '0'

theorem zeros_bits (n : Nat) : ∀ c ∈ zeros n, isBit c = true := by
  intro c hc
  rw [zeros, List.mem_replicate] at hc
  rw [hc.2]
  decide

theorem zeros_snoc (n : Nat) : zeros n ++ ['0'] = zeros (n + 1) := by
  have h1 : (['0'] : List Char) = List.replicate 1 '0' := rfl
  rw [zeros, zeros, h1, ← List.replicate_add]

theorem zeros_cons_append (n : Nat) (X : List Char) :
    zeros n ++ '0' :: X = zeros (n + 1) ++ X := by
  rw [← zeros_snoc n]
  simp

/-- The per-bit rules of `to_unary` turn the value bits into the matching
number of `A`s after the bit field, one bit at a time. -/
theorem toSteps_inv : ∀ b, b ≤ 9 → ∀ m k, m < 2 ^ (b + 1) →
    toUnarySteps b ('i' :: 'n' :: 't' :: (zeros (9 - b) ++ (binChars (b + 1) m ++ unary k))) =
      'i' :: 'n' :: 't' :: (zeros 10 ++ unary (m + k)) := by
  intro b
  induction b with
  | zero =>
    intro _ m k hm
    rw [toUnarySteps]
    match m, hm with
    | 0, _ =>
      have hbc : binChars 1 0 ++ unary k = '0' :: unary k := by
        have h0 : binChars 1 0 = ['0'] := by decide
        simp [h0]
      rw [hbc, toRule_skip 0 (zeros 9) (unary k) (by simp [zeros_length]),
          zeros_cons_append 9 (unary k)]
      simp
    | 1, _ =>
      have hbc : binChars 1 1 ++ unary k = '1' :: ([] ++ unary k) := by
        have h0 : binChars 1 1 = ['1'] := by decide
        simp [h0]
      rw [hbc, toRule_fire 0 (zeros 9) [] k (zeros_bits 9) (by simp [zeros_length])
            (by simp) (by simp)]
      simp only [List.nil_append]
      rw [zeros_cons_append 9]
      norm_num
  | succ b ih =>
    intro hb m k hm
    have hb' : b ≤ 9 := by omega
    have hq1 : 1 ≤ 2 ^ (b + 1) := Nat.one_le_two_pow
    have h2q : 2 ^ (b + 1 + 1) = 2 * 2 ^ (b + 1) := by rw [pow_succ]; ring
    have hmod : m % 2 ^ (b + 1) < 2 ^ (b + 1) := Nat.mod_lt _ (by omega)
    rw [toUnarySteps]
    by_cases h : 2 ^ (b + 1) ≤ m
    · have hbc : binChars (b + 1 + 1) m = '1' :: binChars (b + 1) (m % 2 ^ (b + 1)) := by
        rw [binChars, if_pos h]
      rw [hbc, List.cons_append,
          toRule_fire (b + 1) (zeros (9 - (b + 1))) (binChars (b + 1) (m % 2 ^ (b + 1))) k
            (zeros_bits _) (by simp [zeros_length]) (binChars_bits _ _) (binChars_length _ _)]
      have hz : zeros (9 - (b + 1)) ++ '0' ::
            (binChars (b + 1) (m % 2 ^ (b + 1)) ++ unary (2 ^ (b + 1) + k)) =
          zeros (9 - b) ++ (binChars (b + 1) (m % 2 ^ (b + 1)) ++ unary (2 ^ (b + 1) + k)) := by
        have h1 : zeros (9 - (b + 1)) ++ ['0'] = zeros (9 - b) := by
          rw [zeros_snoc]
          congr 1
          omega
        rw [← h1]
        simp
      rw [hz, ih hb' (m % 2 ^ (b + 1)) (2 ^ (b + 1) + k) hmod]
      have harith : m % 2 ^ (b + 1) + (2 ^ (b + 1) + k) = m + k := by
        have : m % 2 ^ (b + 1) = m - 2 ^ (b + 1) := by
          rw [Nat.mod_eq_sub_mod h, Nat.mod_eq_of_lt (by omega)]
        omega
      rw [harith]
    · have hmlt : m < 2 ^ (b + 1) := Nat.not_le.mp h
      have hbc : binChars (b + 1 + 1) m = '0' :: binChars (b + 1) m := by
        rw [binChars, if_neg h, Nat.mod_eq_of_lt hmlt]
      rw [hbc, List.cons_append,
          toRule_skip (b + 1) (zeros (9 - (b + 1))) (binChars (b + 1) m ++ unary k)
            (by simp [zeros_length])]
      have hz : zeros (9 - (b + 1)) ++ '0' :: (binChars (b + 1) m ++ unary k) =
          zeros (9 - b) ++ (binChars (b + 1) m ++ unary k) := by
        have h1 : zeros (9 - (b + 1)) ++ ['0'] = zeros (9 - b) := by
          rw [zeros_snoc]
          congr 1
          omega
        rw [← h1]
        simp
      rw [hz, ih hb' m k hmlt]

theorem dropWhile_zeros_unary (j n : Nat) :
    (zeros j ++ unary n).dropWhile (fun c => c = '0') = unary n := by
  induction j with
  | zero =>
    rw [zeros, List.replicate, List.nil_append]
    cases n with
    | zero => rw [unary]; rfl
    | succ n => rw [unary_succ, List.dropWhile_cons, if_neg (by decide)]
  | succ j ih =>
    rw [zeros, List.replicate_succ, List.cons_append, List.dropWhile_cons,
        if_pos (by decide)]
    exact ih

/-- `to_unary` on the ten-bit literal of `n < 1024` produces the unary
run `A^n`. -/
theorem toUnaryLine_binLit (n : Nat) (h : n < 1024) : toUnaryLine (binLit n) = unary n := by
  have h1 : binLit n = 'i' :: 'n' :: 't' :: (zeros (9 - 9) ++ (binChars 10 n ++ unary 0)) := by
    simp [binLit, zeros, unary]
  rw [toUnaryLine, h1, toSteps_inv 9 (by omega) n 0 (by norm_num; omega)]
  simp [toClean, dropWhile_zeros_unary]

/-- C4.  On a single active thread whose top of stack is the 10-bit
binary literal of `n < 2^10`, `to_unary` followed by `from_unary`
restores exactly the same literal (with the rest of the thread
untouched). -/
theorem c4_unary_round_trip (n : Nat) (rest : List Line) (h : n < 1024) :
    applyFromUnary (applyToUnary ⟨none, binLit n :: rest⟩) = ⟨none, binLit n :: rest⟩ := by
  simp [applyToUnary, applyFromUnary, onActive, onFirstLine,
        toUnaryLine_binLit n h, fromUnaryLine_le n (by omega)]

/-- C4 (witness): the round trip at `n = 777`. -/
theorem c4_unary_round_trip_witness :
    applyFromUnary (applyToUnary ⟨none, [binLit 777]⟩) = ⟨none, [binLit 777]⟩ :=
  c4_unary_round_trip 777 [] (by norm_num)

/-! ## C3: `sub_unary` -/

theorem allAs_bt_false (l : Line) : allAs (btChar :: l) = false := by
  rw [allAs, List.all_cons]
  rw [show (decide (btChar = 'A')) = false from by decide]
  rfl

theorem stripSub_no_bt (l : Line) (h : btChar ∉ l) : stripSubMarker l = l := by
  induction l with
  | nil => rfl
  | cons c cs ih =>
    have hc : c ≠ btChar := fun he => h (he ▸ List.mem_cons_self c cs)
    rw [stripSubMarker, if_neg (fun hcon => hc hcon.1),
        ih (fun hm => h (List.mem_cons_of_mem c hm))]

theorem stripZero_no_bt (l : Line) (h : btChar ∉ l) : stripZeroMarker l = l := by
  induction l with
  | nil => rfl
  | cons c cs ih =>
    have hc : c ≠ btChar := fun he => h (he ▸ List.mem_cons_self c cs)
    rw [stripZeroMarker, if_neg (fun hcon => hc hcon.1),
        ih (fun hm => h (List.mem_cons_of_mem c hm))]

theorem stripSub_marker (j : Nat) :
    stripSubMarker (btChar :: 's' :: 'u' :: 'b' :: unary j) = unary j := by
  have hcond : btChar = btChar ∧
      (('s' :: 'u' :: 'b' :: [] : Line)).isPrefixOf ('s' :: 'u' :: 'b' :: unary j) ∧
      (('s' :: 'u' :: 'b' :: unary j).drop 3).all (fun x => x = 'A') = true := by
    refine ⟨rfl, by simp [List.isPrefixOf], ?_⟩
    show (unary j).all (fun x => x = 'A') = true
    exact allAs_unary j
  rw [stripSubMarker, if_pos hcond]
  rfl

theorem map_stripSub_no_bt (L : List Line) (h : ∀ l ∈ L, btChar ∉ l) :
    L.map stripSubMarker = L := by
  induction L with
  | nil => rfl
  | cons a as ih =>
    rw [List.map_cons, stripSub_no_bt a (h a (by simp)),
        ih (fun l hl => h l (by simp [hl]))]

theorem map_stripZero_no_bt (L : List Line) (h : ∀ l ∈ L, btChar ∉ l) :
    L.map stripZeroMarker = L := by
  induction L with
  | nil => rfl
  | cons a as ih =>
    rw [List.map_cons, stripZero_no_bt a (h a (by simp)),
        ih (fun l hl => h l (by simp [hl]))]

/-- C3.  With the unary encoding of `y` on top of the stack (pushed last)
and the unary encoding of `x` below it, `sub_unary` replaces both values
with the unary encoding of `max(0, x - y)` — it computes `next` minus
`top`, clamped at zero (`Nat` subtraction is exactly this clamp).  The
rest of the thread (assumed backtick-free, as the state grammar
guarantees) is untouched. -/
theorem c3_sub_unary (x y : Nat) (rest : List Line)
    (hx : x < 1024) (hy : y < 1024)
    (hrest : ∀ l ∈ rest, btChar ∉ l) :
    applySubUnary ⟨none, unary y :: unary x :: rest⟩ = ⟨none, unary (x - y) :: rest⟩ := by
  by_cases hyx : y ≤ x
  · have h1 : subRule1 (unary y :: unary x :: rest) =
        (btChar :: 's' :: 'u' :: 'b' :: unary (x - y)) :: rest := by
      have hdrop : (unary x).drop y = unary (x - y) := by
        rw [unary, unary, List.drop_replicate]
      simp [subRule1, allAs_unary, unary_length, hyx, hdrop]
    have h2 : subRule2 ((btChar :: 's' :: 'u' :: 'b' :: unary (x - y)) :: rest) =
        (btChar :: 's' :: 'u' :: 'b' :: unary (x - y)) :: rest := by
      cases rest with
      | nil => rfl
      | cons r rs => simp [subRule2, allAs_bt_false]
    have ht1 : onActive (fun body => subRule2 (subRule1 body))
        ⟨none, unary y :: unary x :: rest⟩ =
        ⟨none, (btChar :: 's' :: 'u' :: 'b' :: unary (x - y)) :: rest⟩ := by
      simp [onActive, h1, h2]
    simp only [applySubUnary, ht1]
    simp [stripSub_marker, stripZero_no_bt _ (bt_not_mem_unary (x - y)),
          map_stripSub_no_bt rest hrest, map_stripZero_no_bt rest hrest]
  · have hxy : x < y := Nat.not_le.mp hyx
    have h1 : subRule1 (unary y :: unary x :: rest) = unary y :: unary x :: rest := by
      simp [subRule1, unary_length, hyx]
    have h2 : subRule2 (unary y :: unary x :: rest) =
        (btChar :: 'z' :: 'e' :: 'r' :: 'o' :: []) :: rest := by
      simp [subRule2, allAs_unary]
    have h3 : stripSubMarker (btChar :: 'z' :: 'e' :: 'r' :: 'o' :: []) =
        btChar :: 'z' :: 'e' :: 'r' :: 'o' :: [] := by rfl
    have h4 : stripZeroMarker (btChar :: 'z' :: 'e' :: 'r' :: 'o' :: []) = [] := by rfl
    have h5 : unary (x - y) = [] := by
      rw [Nat.sub_eq_zero_of_le (by omega), unary]
      rfl
    have ht1 : onActive (fun body => subRule2 (subRule1 body))
        ⟨none, unary y :: unary x :: rest⟩ =
        ⟨none, (btChar :: 'z' :: 'e' :: 'r' :: 'o' :: []) :: rest⟩ := by
      simp [onActive, h1, h2]
    simp only [applySubUnary, ht1]
    simp [h3, h4, h5, map_stripSub_no_bt rest hrest, map_stripZero_no_bt rest hrest]

/-- C3 (witness): `7 - 3` and the clamped `5 - 6`. -/
theorem c3_sub_unary_witness :
    applySubUnary ⟨none, [unary 3, unary 7]⟩ = ⟨none, [unary 4]⟩ ∧
    applySubUnary ⟨none, [unary 6, unary 5]⟩ = ⟨none, [unary 0]⟩ :=
  ⟨c3_sub_unary 7 3 [] (by norm_num) (by norm_num) (by simp),
   c3_sub_unary 5 6 [] (by norm_num) (by norm_num) (by simp)⟩

/-! ## C7: comparator trichotomy -/

theorem unary_all_ne_bt (n : Nat) : (unary n).all (fun c => c ≠ btChar) = true := by
  rw [List.all_eq_true]
  intro c hc
  rw [unary, List.mem_replicate] at hc
  rw [hc.2]
  decide

theorem gtRule2_marked (tl : Line) (rest : List Line) :
    gtRule2 ((btChar :: tl) :: rest) = (btChar :: tl) :: rest := by
  cases rest with
  | nil => rfl
  | cons r rs =>
    have : (btChar :: tl).all (fun c => c ≠ btChar) = false := by
      rw [List.all_cons]
      rw [show (decide (btChar ≠ btChar)) = false from by decide]
      rfl
    simp [gtRule2, this]

theorem eqRule2_marked (tl : Line) (rest : List Line) :
    eqRule2 ((btChar :: tl) :: rest) = (btChar :: tl) :: rest := by
  cases rest with
  | nil => rfl
  | cons r rs => simp [eqRule2]

theorem stripBT_trueLine :
    stripBTLine (btChar :: 'T' :: 'r' :: 'u' :: 'e' :: []) =
      'T' :: 'r' :: 'u' :: 'e' :: [] := by rfl

theorem stripBT_falseLine :
    stripBTLine ('F' :: 'a' :: 'l' :: 's' :: 'e' :: []) =
      'F' :: 'a' :: 'l' :: 's' :: 'e' :: [] := by rfl

theorem stripBT_no_bt (l : Line) (h : btChar ∉ l) : stripBTLine l = l := by
  refine List.filter_eq_self.mpr ?_
  intro a ha
  simp only [decide_eq_true_eq]
  exact fun he => h (he ▸ ha)

theorem map_stripBT_no_bt (L : List Line) (h : ∀ l ∈ L, btChar ∉ l) :
    L.map stripBTLine = L := by
  induction L with
  | nil => rfl
  | cons a as ih =>
    rw [List.map_cons, stripBT_no_bt a (h a (by simp)),
        ih (fun l hl => h l (by simp [hl]))]

theorem bt_not_mem_true : btChar ∉ "True".data := by decide

theorem bt_not_mem_false : btChar ∉ "False".data := by decide

theorem stripBTThread_markedTrue (rest : List Line) (hrest : ∀ l ∈ rest, btChar ∉ l) :
    stripBTThread ⟨none, (btChar :: 'T' :: 'r' :: 'u' :: 'e' :: []) :: rest⟩ =
      ⟨none, ('T' :: 'r' :: 'u' :: 'e' :: []) :: rest⟩ := by
  simp [stripBTThread, stripBT_trueLine, map_stripBT_no_bt rest hrest]

theorem stripBTThread_false (rest : List Line) (hrest : ∀ l ∈ rest, btChar ∉ l) :
    stripBTThread ⟨none, ('F' :: 'a' :: 'l' :: 's' :: 'e' :: []) :: rest⟩ =
      ⟨none, ('F' :: 'a' :: 'l' :: 's' :: 'e' :: []) :: rest⟩ := by
  simp [stripBTThread, stripBT_falseLine, map_stripBT_no_bt rest hrest]

theorem applyGt_unary (x y : Nat) (rest : List Line)
    (hrest : ∀ l ∈ rest, btChar ∉ l) :
    applyGt ⟨none, unary x :: unary y :: rest⟩ =
      ⟨none, boolLine (decide (y < x)) :: rest⟩ := by
  by_cases hab : y < x
  · have h1 : gtRule1 (unary x :: unary y :: rest) =
        (btChar :: 'T' :: 'r' :: 'u' :: 'e' :: []) :: rest := by
      simp [gtRule1, allAs_unary, unary_length, hab]
    have hmid : applyGt ⟨none, unary x :: unary y :: rest⟩ =
        stripBTThread ⟨none, (btChar :: 'T' :: 'r' :: 'u' :: 'e' :: []) :: rest⟩ := by
      simp [applyGt, onActive, h1, gtRule2_marked]
    rw [hmid, stripBTThread_markedTrue rest hrest]
    simp [boolLine, hab]
  · have h1 : gtRule1 (unary x :: unary y :: rest) = unary x :: unary y :: rest := by
      simp [gtRule1, unary_length, hab]
    have h2 : gtRule2 (unary x :: unary y :: rest) =
        ('F' :: 'a' :: 'l' :: 's' :: 'e' :: []) :: rest := by
      simp [gtRule2, unary_all_ne_bt, bt_not_mem_unary]
    have hmid : applyGt ⟨none, unary x :: unary y :: rest⟩ =
        stripBTThread ⟨none, ('F' :: 'a' :: 'l' :: 's' :: 'e' :: []) :: rest⟩ := by
      simp [applyGt, onActive, h1, h2]
    rw [hmid, stripBTThread_false rest hrest]
    simp [boolLine, hab]

theorem applyLt_unary (x y : Nat) (rest : List Line)
    (hrest : ∀ l ∈ rest, btChar ∉ l) :
    applyLt ⟨none, unary x :: unary y :: rest⟩ =
      ⟨none, boolLine (decide (x < y)) :: rest⟩ := by
  have hsw : swapB (unary x :: unary y :: rest) = unary y :: unary x :: rest := rfl
  by_cases hab : x < y
  · have h1 : gtRule1 (unary y :: unary x :: rest) =
        (btChar :: 'T' :: 'r' :: 'u' :: 'e' :: []) :: rest := by
      simp [gtRule1, allAs_unary, unary_length, hab]
    have hmid : applyLt ⟨none, unary x :: unary y :: rest⟩ =
        stripBTThread ⟨none, (btChar :: 'T' :: 'r' :: 'u' :: 'e' :: []) :: rest⟩ := by
      simp [applyLt, onActive, hsw, h1, gtRule2_marked]
    rw [hmid, stripBTThread_markedTrue rest hrest]
    simp [boolLine, hab]
  · have h1 : gtRule1 (unary y :: unary x :: rest) = unary y :: unary x :: rest := by
      simp [gtRule1, unary_length, hab]
    have h2 : gtRule2 (unary y :: unary x :: rest) =
        ('F' :: 'a' :: 'l' :: 's' :: 'e' :: []) :: rest := by
      simp [gtRule2, unary_all_ne_bt, bt_not_mem_unary]
    have hmid : applyLt ⟨none, unary x :: unary y :: rest⟩ =
        stripBTThread ⟨none, ('F' :: 'a' :: 'l' :: 's' :: 'e' :: []) :: rest⟩ := by
      simp [applyLt, onActive, hsw, h1, h2]
    rw [hmid, stripBTThread_false rest hrest]
    simp [boolLine, hab]

theorem applyEq_unary (x y : Nat) (rest : List Line)
    (hrest : ∀ l ∈ rest, btChar ∉ l) (h : 0 < x ∨ y = 0) :
    applyEq ⟨none, unary x :: unary y :: rest⟩ =
      ⟨none, boolLine (decide (x = y)) :: rest⟩ := by
  by_cases hxy : x = y
  · subst hxy
    have h1 : eqRule1 (unary x :: unary x :: rest) =
        (btChar :: 'T' :: 'r' :: 'u' :: 'e' :: []) :: rest := by
      simp [eqRule1]
    have hmid : applyEq ⟨none, unary x :: unary x :: rest⟩ =
        stripBTThread ⟨none, (btChar :: 'T' :: 'r' :: 'u' :: 'e' :: []) :: rest⟩ := by
      simp [applyEq, onActive, h1, eqRule2_marked]
    rw [hmid, stripBTThread_markedTrue rest hrest]
    simp [boolLine]
  · have hne : unary x ≠ unary y := fun he => hxy (unary_inj he)
    have h1 : eqRule1 (unary x :: unary y :: rest) = unary x :: unary y :: rest := by
      simp [eqRule1, hne]
    obtain ⟨k, hk⟩ : ∃ k, x = k + 1 := by
      rcases h with h | h
      · exact ⟨x - 1, by omega⟩
      · subst h
        cases x with
        | zero => exact absurd rfl hxy
        | succ k => exact ⟨k, rfl⟩
    have hA : ('A' : Char) ≠ btChar := by decide
    have h2 : eqRule2 (unary x :: unary y :: rest) =
        ('F' :: 'a' :: 'l' :: 's' :: 'e' :: []) :: rest := by
      rw [hk, unary_succ]
      simp [eqRule2, hA]
    have hmid : applyEq ⟨none, unary x :: unary y :: rest⟩ =
        stripBTThread ⟨none, ('F' :: 'a' :: 'l' :: 's' :: 'e' :: []) :: rest⟩ := by
      simp [applyEq, onActive, h1, h2]
    rw [hmid, stripBTThread_false rest hrest]
    simp [boolLine, hxy]

/-- C7 (counterexample).  With `x = 0` on top and `y = 1` below and
nothing else in the thread, `eq` leaves the stack *unchanged* (its
fallback rule `([^`][^\n]*)\n([^\n]*)\n` cannot match the empty top line
without consuming a third line, which does not exist here) — it does not
leave `False` as the claim requires. -/
theorem c7_eq_empty_top :
    applyEq ⟨none, [unary 0, unary 1]⟩ = ⟨none, [unary 0, unary 1]⟩ ∧
    (applyEq ⟨none, [unary 0, unary 1]⟩).body ≠ [boolLine false] := by
  decide

/-- C7 (amended).  For unary `x` on top of the stack and unary `y` below,
and provided `x > 0` or `y = 0` (when `x = 0 < y` the `eq` fallback
misfires, see the counterexample): `less_than` leaves `True` iff `x < y`,
`eq` leaves `True` iff `x = y`, `greater_than` leaves `True` iff `x > y`,
each leaving `False` in the other cases, and exactly one of the three
leaves `True`. -/
theorem c7_comparator_trichotomy (x y : Nat) (rest : List Line)
    (hrest : ∀ l ∈ rest, btChar ∉ l) (h : 0 < x ∨ y = 0) :
    applyLt ⟨none, unary x :: unary y :: rest⟩ =
      ⟨none, boolLine (decide (x < y)) :: rest⟩ ∧
    applyEq ⟨none, unary x :: unary y :: rest⟩ =
      ⟨none, boolLine (decide (x = y)) :: rest⟩ ∧
    applyGt ⟨none, unary x :: unary y :: rest⟩ =
      ⟨none, boolLine (decide (y < x)) :: rest⟩ ∧
    (decide (x < y)).toNat + (decide (x = y)).toNat + (decide (y < x)).toNat = 1 := by
  refine ⟨applyLt_unary x y rest hrest, applyEq_unary x y rest hrest h,
          applyGt_unary x y rest hrest, ?_⟩
  rcases Nat.lt_trichotomy x y with ht | ht | ht
  · simp [ht, Nat.ne_of_lt ht, Nat.lt_asymm ht]
  · subst ht
    simp [Nat.lt_irrefl]
  · simp [ht, Nat.lt_asymm ht, (Nat.ne_of_lt ht).symm]

/-- C7 (witness): the three comparators on `x = 2` (top), `y = 5`. -/
theorem c7_comparator_trichotomy_witness :
    applyLt ⟨none, [unary 2, unary 5]⟩ = ⟨none, [boolLine (decide (2 < 5))]⟩ ∧
    applyEq ⟨none, [unary 2, unary 5]⟩ = ⟨none, [boolLine (decide (2 = 5))]⟩ ∧
    applyGt ⟨none, [unary 2, unary 5]⟩ = ⟨none, [boolLine (decide (5 < 2))]⟩ ∧
    (decide (2 < 5)).toNat + (decide (2 = 5)).toNat + (decide (5 < 2)).toNat = 1 :=
  c7_comparator_trichotomy 2 5 [] (by simp) (by norm_num)

/-! ## C1: the tracer loop -/

/-- C1 (counterexample).  The claim states that if ten tracing iterations
do not complete the call tree, compilation fails hard instead of
proceeding.  But `trace` is a plain `for _ in range(10)` loop with no
completeness check and no abort: on a program with four levels of nested
branches (16 paths, more than 10), `trace` simply returns the still
incomplete tree (`traverse` finds a `None` child). -/
theorem c1_trace_incomplete_returned :
    traverseN traceFuel (traceModel (nestedProg 4)) = false := by rfl

/-- C1 (amended).  The tracer re-invokes the traced program exactly ten
times unconditionally.  Ten iterations suffice for a program with eight
paths (three levels of nesting, completed tree), but a program with
sixteen paths (four levels) is returned as a non-empty yet incomplete
tree, and compilation proceeds to linearisation; nothing fails hard. -/
theorem c1_trace_ten_iterations :
    traverseN traceFuel (traceModel (nestedProg 3)) = true ∧
    (traceModel (nestedProg 4)).isEmpty = false ∧
    traverseN traceFuel (traceModel (nestedProg 4)) = false :=
  ⟨by rfl, by rfl, by rfl⟩

/-! ## C6: operand order in expression lowering -/

/-- C6 (counterexample).  Integer addition does *not* lower its rightmost
operand first: `("+", 1, 2)` lowers to `push 1; push 2; binary_add`, with
the left operand first (the claimed order would be `push 2; push 1;
binary_add`). -/
theorem c6_add_lowers_left_first :
    linearizeExpr (.addE (.litI 1) (.litI 2)) ≠
      linearizeExpr (.litI 2) ++ linearizeExpr (.litI 1) ++ [.binaryAddO] := by
  decide

/-- C6 (amended).  Expression lowering emits the rightmost operand first
(so the left operand is on top of the stack when the opcode fires) for
equality, inequality, the four ordered comparisons, boolean and/or,
string concatenation and integer subtraction — but *not* for integer
addition, which lowers its left operand first (the `op == '+'` arm of
`linearize_expr` runs before the dead `unary_ops` lookup and swaps the
order; `binary_add` is commutative so the result is unaffected). -/
theorem c6_operand_order (a b : Expr) :
    linearizeExpr (.eqE a b) = linearizeExpr b ++ linearizeExpr a ++ [.eqO] ∧
    linearizeExpr (.neqE a b) = linearizeExpr b ++ linearizeExpr a ++ [.neqO] ∧
    linearizeExpr (.ltE a b) =
      linearizeExpr b ++ [.toUnaryO] ++ linearizeExpr a ++ [.toUnaryO, .lessThanO] ∧
    linearizeExpr (.gtE a b) =
      linearizeExpr b ++ [.toUnaryO] ++ linearizeExpr a ++ [.toUnaryO, .greaterThanO] ∧
    linearizeExpr (.leE a b) =
      linearizeExpr b ++ [.toUnaryO] ++ linearizeExpr a ++ [.toUnaryO, .lessEqualThanO] ∧
    linearizeExpr (.geE a b) =
      linearizeExpr b ++ [.toUnaryO] ++ linearizeExpr a ++ [.toUnaryO, .greaterEqualThanO] ∧
    linearizeExpr (.andE a b) = linearizeExpr b ++ linearizeExpr a ++ [.booleanAndO] ∧
    linearizeExpr (.orE a b) = linearizeExpr b ++ linearizeExpr a ++ [.booleanOrO] ∧
    linearizeExpr (.catE a b) = linearizeExpr b ++ linearizeExpr a ++ [.stringCatO] ∧
    linearizeExpr (.subE a b) = linearizeExpr b ++ linearizeExpr a ++ [.binarySubtractO] ∧
    linearizeExpr (.addE a b) = linearizeExpr a ++ linearizeExpr b ++ [.binaryAddO] := by
  refine ⟨?_, ?_, ?_, ?_, ?_, ?_, ?_, ?_, ?_, ?_, ?_⟩ <;> simp [linearizeExpr]

/-! ## C5: branch linearisation -/

theorem tagsOf_append (a b : List Opcode) : tagsOf (a ++ b) = tagsOf a ++ tagsOf b := by
  induction a with
  | nil => rfl
  | cons h t ih => cases h <;> simp [tagsOf, ih]

theorem tagsOf_expr (e : Expr) : tagsOf (linearizeExpr e) = [] := by
  induction e <;> simp [linearizeExpr, tagsOf, tagsOf_append, *]

mutual
theorem linNode_counter_le (t : TNode) (n : Nat) : n ≤ (linNode t n).2 := by
  cases t with
  | assignN key v => cases v <;> simp [linNode]
  | lookupN key => simp [linNode]
  | rawN name => simp [linNode]
  | branchN c l r =>
    have h1 := linList_counter_le l (n + 2)
    have h2 := linList_counter_le r (linList l (n + 2)).2
    simp only [linNode]
    omega

theorem linList_counter_le (l : TList) (n : Nat) : n ≤ (linList l n).2 := by
  cases l with
  | nil => simp [linList]
  | cons t ts =>
    have h1 := linNode_counter_le t n
    have h2 := linList_counter_le ts (linNode t n).2
    simp only [linList]
    omega
end

mutual
theorem linNode_tags_range (t : TNode) (n : Nat) :
    ∀ k ∈ tagsOf (linNode t n).1, n ≤ k ∧ k < (linNode t n).2 := by
  cases t with
  | assignN key v => cases v <;> simp [linNode, tagsOf, tagsOf_append, tagsOf_expr]
  | lookupN key => simp [linNode, tagsOf]
  | rawN name => simp [linNode, tagsOf]
  | branchN c l r =>
    intro k hk
    have hL := linList_tags_range l (n + 2)
    have hR := linList_tags_range r (linList l (n + 2)).2
    have mL := linList_counter_le l (n + 2)
    have mR := linList_counter_le r (linList l (n + 2)).2
    simp only [linNode, tagsOf_append, tagsOf_expr, tagsOf, List.nil_append] at hk ⊢
    by_cases hre : (linList r (linList l (n + 2)).2).1 = []
    · simp only [hre, if_pos rfl, tagsOf, tagsOf_append] at hk
      simp only [List.mem_cons, List.mem_append] at hk
      rcases hk with rfl | hk | hk
      · omega
      · have := hL k hk; omega
      · simp [tagsOf] at hk
        omega
    · simp only [if_neg hre, tagsOf, tagsOf_append] at hk
      simp only [List.mem_cons, List.mem_append] at hk
      rcases hk with rfl | hk | rfl | rfl | hk | hk
      · omega
      · have := hL k hk; omega
      · omega
      · omega
      · have := hR k hk; omega
      · simp [tagsOf] at hk
        omega

theorem linList_tags_range (l : TList) (n : Nat) :
    ∀ k ∈ tagsOf (linList l n).1, n ≤ k ∧ k < (linList l n).2 := by
  cases l with
  | nil => simp [linList, tagsOf]
  | cons t ts =>
    intro k hk
    have hN := linNode_tags_range t n
    have hT := linList_tags_range ts (linNode t n).2
    have mN := linNode_counter_le t n
    have mT := linList_counter_le ts (linNode t n).2
    simp only [linList, tagsOf_append, List.mem_append] at hk ⊢
    rcases hk with hk | hk
    · have := hN k hk; omega
    · have := hT k hk; omega
end

/-- C5.  Linearising a branch node with condition `C`, true arm `L` and
false arm `R` at counter value `n` emits exactly: the lowering of `C`
(which contains no labels), then `cond T1`, then the lowering of `L`,
then — when the lowering of `R` is non-empty — `pause T2`,
`reactivate T1`, the lowering of `R`, `reactivate T2`, and otherwise just
`reactivate T1`; the labels `T1 = UID n` and `T2 = UID (n+1)` are the next
two counter values, distinct from each other and from every label used
inside the lowered arms (labels are monotonically numbered, hence unique
within one compilation). -/
theorem c5_branch_linearisation (c : Expr) (l r : TList) (n : Nat) :
    (linNode (.branchN c l r) n).1 =
      linearizeExpr c ++ .condO n ::
        ((linList l (n + 2)).1 ++
          (if (linList r (linList l (n + 2)).2).1 = [] then [.reactivateO n]
           else .pauseO (n + 1) :: .reactivateO n ::
             ((linList r (linList l (n + 2)).2).1 ++ [.reactivateO (n + 1)]))) ∧
    tagsOf (linearizeExpr c) = [] ∧
    n ∉ tagsOf (linList l (n + 2)).1 ∧
    n + 1 ∉ tagsOf (linList l (n + 2)).1 ∧
    n ∉ tagsOf (linList r (linList l (n + 2)).2).1 ∧
    n + 1 ∉ tagsOf (linList r (linList l (n + 2)).2).1 ∧
    n ≠ n + 1 := by
  refine ⟨by simp [linNode], tagsOf_expr c, ?_, ?_, ?_, ?_, by omega⟩
  · intro hk
    have := linList_tags_range l (n + 2) n hk
    omega
  · intro hk
    have := linList_tags_range l (n + 2) (n + 1) hk
    omega
  · intro hk
    have := linList_tags_range r (linList l (n + 2)).2 n hk
    have := linList_counter_le l (n + 2)
    omega
  · intro hk
    have := linList_tags_range r (linList l (n + 2)).2 (n + 1) hk
    have := linList_counter_le l (n + 2)
    omega

/-! ## C8: thread isolation -/

/-- C8 (amended, isolation half).  `lookup` rewrites every active thread
independently: applying it to an `N`-thread state gives the same result,
thread by thread, as applying it to each thread in isolation. -/
theorem c8_lookup_isolated (v : List Char) (s : MState) :
    applyLookup v s = s.flatMap (fun t => applyLookup v [t]) := by
  induction s with
  | nil => rfl
  | cons t ts ih => simp [applyLookup] at ih ⊢; exact ih

/-- C8 (counterexample).  `join_pop` is *not* thread isolated: on an
active thread followed by a `%T`-tagged thread it moves the tagged
thread's stack top into the active thread and deletes the tagged thread,
while applied to each of the two threads in isolation it does nothing. -/
theorem c8_join_pop_not_isolated :
    applyJoinPop ['T'] [⟨none, [['x']]⟩, ⟨some ['T'], [['y']]⟩] ≠
      ([⟨none, [['x']]⟩, ⟨some ['T'], [['y']]⟩] : MState).flatMap
        (fun t => applyJoinPop ['T'] [t]) := by
  decide

/-! ## C9: the illegal-move catch-all rule -/

theorem containsSeq_two_mem {a b : Char} {s : List Char}
    (h : containsSeq (a :: b :: []) s = true) : a ∈ s := by
  induction s with
  | nil => simp [containsSeq] at h
  | cons c rest ih =>
    rw [containsSeq, Bool.or_eq_true] at h
    rcases h with h | h
    · simp [List.isPrefixOf] at h
      simp [h.1]
    · exact List.mem_cons_of_mem _ (ih h)

/-- C9 (counterexample).  A state consisting of one *inactive* thread
contains no active thread, yet the catch-all rule `^[^%<]*$` does not
match it (it contains `%`), so no `*Illegal Move*` text appears —
contradicting the claim that every state without an active thread is
rewritten. -/
theorem c9_inactive_thread_not_rewritten :
    hasActiveHeader ("%T\n#stack:\nfoo\n").data = false ∧
    illegalMove ("%T\n#stack:\nfoo\n").data = ("%T\n#stack:\nfoo\n").data ∧
    containsSeq ("*Illegal Move*").data ("%T\n#stack:\nfoo\n").data = false := by
  decide

/-- C9 (amended).  The catch-all rule (applied by `re.sub` without
MULTILINE) rewrites exactly the states that contain no `%` and no `<`
character at all — in particular states with no threads whatsoever —
replacing the whole state with text containing `*Illegal Move*`; any
state that contains an active thread (indeed, any `%` or `<`, including
inactive-thread-only states) is left unchanged. -/
theorem c9_illegal_move (s : List Char) :
    (s.contains '%' = false ∧ s.contains '<' = false →
      illegalMove s = illegalRepl) ∧
    (hasActiveHeader s = true → illegalMove s = s) ∧
    containsSeq ("*Illegal Move*").data illegalRepl = true := by
  refine ⟨fun h => ?_, fun h => ?_, by decide⟩
  · obtain ⟨h1, h2⟩ := h
    simp only [illegalMove, h1, h2, Bool.or_self]
    simp
  · have hp : s.contains '%' = true :=
      List.elem_eq_true_of_mem (containsSeq_two_mem (a := '%') (b := '%') (s := s) h)
    simp only [illegalMove, hp, Bool.true_or]
    simp

/-- C9 (witness): the amended theorem applied to a thread-free state and
to a state with an active thread. -/
theorem c9_illegal_move_witness :
    illegalMove ("x\n").data = illegalRepl ∧
    illegalMove ("%%\n#stack:\n").data = ("%%\n#stack:\n").data :=
  ⟨(c9_illegal_move _).1 (by decide), (c9_illegal_move _).2.1 (by decide)⟩

/-! ## C10: `pop` on an empty stack -/

/-- C10.  `pop` removes the first line after the `#stack:` header, no
matter what it is.  On an active thread whose stack is empty (every body
line is a `#name: value` variable line) and that has at least one
variable, `pop` is not a no-op: it deletes the thread's first variable
line, and the stack remains empty. -/
theorem c10_pop_empty_stack (t : Thread) (htag : t.tag = none)
    (hvars : ∀ l ∈ t.body, l.head? = some '#') (hne : t.body ≠ []) :
    applyPop t = ⟨none, t.body.tail⟩ ∧
    (applyPop t).body ≠ t.body ∧
    stackLines t.body = [] ∧
    stackLines (applyPop t).body = [] := by
  obtain ⟨l, rest, hb⟩ : ∃ l rest, t.body = l :: rest := by
    cases hbody : t.body with
    | nil => exact absurd hbody hne
    | cons l rest => exact ⟨l, rest, rfl⟩
  have hl : l.head? = some '#' := hvars l (by rw [hb]; exact List.mem_cons_self l rest)
  have hpop : applyPop t = ⟨none, rest⟩ := by
    simp [applyPop, onActive, htag, hb, popB]
  have htail : (l :: rest).tail = rest := rfl
  refine ⟨by rw [hpop, hb, htail], ?_, ?_, ?_⟩
  · rw [hpop, hb]
    intro hcon
    have := congrArg List.length hcon
    simp at this
  · rw [hb, stackLines, List.takeWhile_cons]
    simp [hl]
  · rw [hpop]
    cases rest with
    | nil => rfl
    | cons m ms =>
      have hm : m.head? = some '#' := hvars m (by rw [hb]; simp)
      simp [stackLines, List.takeWhile_cons, hm]

/-- C10 (witness): a concrete active thread with an empty stack and two
variables. -/
theorem c10_pop_empty_stack_witness :
    applyPop ⟨none, [varLine ['x'] ['1'], varLine ['y'] ['2']]⟩ =
      ⟨none, [varLine ['y'] ['2']]⟩ ∧
    stackLines [varLine ['y'] ['2']] = [] :=
  ⟨(c10_pop_empty_stack ⟨none, [varLine ['x'] ['1'], varLine ['y'] ['2']]⟩
      rfl (by decide) (by decide)).1,
   (c10_pop_empty_stack ⟨none, [varLine ['x'] ['1'], varLine ['y'] ['2']]⟩
      rfl (by decide) (by decide)).2.2.2⟩

end RegexChess
